import Mathlib

/-!
Shallow embedding of the two source files of `concurrent_ds_cpp`:

* `src/concurrent_ds.cpp` — per-thread sharded counters
  (`ApproximateConcurrentCounter`, its fixed-array variant
  `ApproximateConcurrentCounterArray`, and a `SharedCounter` baseline);
* `src/hand_lock_ll.cpp` — an append-only singly linked list with a
  per-node lock (`node_t`, class `List`).

The claims under verification concern the sequential (all operations
completed, no concurrent overlap) behaviour of these structures, so the
embedding models each operation as a pure state transformer.  The
counter slots are `std::atomic<int>`, a 32-bit cell on which `fetch_add`
has defined two's-complement wraparound; a slot is modelled by its bit
pattern, a `Nat` below `2 ^ 32`, on which that wraparound (and the
wraparound of the `int` accumulator of `get_approximate_count`) is
addition modulo `2 ^ 32`.  Slots start at 0 and only ever gain 1, so a
pattern is the number of increments modulo `2 ^ 32`; the signed reading
of a pattern is a bijection, so the equalities the claims state are
unaffected by working on patterns.  List keys are modelled as `Int`.
Heap pointers in the list
are modelled as indices into an allocation-ordered list of nodes; the
null pointer is `Option.none`.  Lock acquisitions performed by `insert`
are recorded as an explicit trace so that "no lock is acquired" claims
are statable.
-/

/-- The number of values of a 32-bit `int`.  `std::atomic<int>::fetch_add`
wraps with two's-complement semantics, which on bit patterns is addition
modulo this constant. -/
def intWrap : Nat := 4294967296

/-- Embedding of the C++ class `ApproximateConcurrentCounter`
(`src/concurrent_ds.cpp`, lines 8–37): a `std::vector` of atomic `int`
counters, one per thread, plus the thread count. -/
structure ApproximateConcurrentCounter where
  thread_counters : List Nat
  num_threads : Nat
deriving Repr, DecidableEq

namespace ApproximateConcurrentCounter

/-- The constructor (lines 15–20): allocates `threads` counters, each
initialized to zero.  It has no failure path. -/
def construct (threads : Nat) : ApproximateConcurrentCounter :=
  { thread_counters := List.replicate threads 0
    num_threads := threads }

/-- `increment(thread_id)` (lines 22–24):
`thread_counters[thread_id]->fetch_add(1, memory_order_relaxed)`, which
wraps the 32-bit slot with two's-complement semantics. -/
def increment (c : ApproximateConcurrentCounter) (thread_id : Nat) :
    ApproximateConcurrentCounter :=
  { c with thread_counters :=
      c.thread_counters.set thread_id ((c.thread_counters.getD thread_id 0 + 1) % intWrap) }

/-- `get_approximate_count()` (lines 26–32): a loop accumulating
`thread_counters[i]->load(...)` for `i` in `[0, num_threads)` into a
32-bit `int` `total`, each addition wrapping. -/
def get_approximate_count (c : ApproximateConcurrentCounter) : Nat :=
  (List.range c.num_threads).foldl
    (fun total i => (total + c.thread_counters.getD i 0) % intWrap) 0

/-- `get_thread_count(thread_id)` (lines 34–36):
`thread_counters[thread_id]->load(...)`. -/
def get_thread_count (c : ApproximateConcurrentCounter) (thread_id : Nat) :
    Nat :=
  c.thread_counters.getD thread_id 0

end ApproximateConcurrentCounter

/-- Embedding of the C++ class `ApproximateConcurrentCounterArray`
(`src/concurrent_ds.cpp`, lines 54–85): a fixed `std::atomic<int>[16]`
array plus the thread count.  The array is modelled as a function
`Nat → Nat`; only indices below `MAX_THREADS = 16` exist in the source,
and all claims restrict accesses to `[0, num_threads)`. -/
structure ApproximateConcurrentCounterArray where
  thread_counters : Nat → Nat
  num_threads : Nat

namespace ApproximateConcurrentCounterArray

/-- `static const int MAX_THREADS = 16` (line 56). -/
def MAX_THREADS : Nat := 16

/-- The constructor (lines 61–68): throws `std::invalid_argument("Too many
threads")` when `threads > MAX_THREADS`, otherwise stores `0` into slots
`[0, threads)`.  Slots at or beyond `threads` are left with whatever the
raw array held (`garbage`); no operation with an in-range thread id ever
reads them. -/
def construct (threads : Nat) (garbage : Nat → Nat) :
    Except String ApproximateConcurrentCounterArray :=
  if threads > MAX_THREADS then
    .error "Too many threads"
  else
    .ok { thread_counters := fun i => if i < threads then 0 else garbage i
          num_threads := threads }

/-- `increment(thread_id)` (lines 70–72):
`thread_counters[thread_id].fetch_add(1, memory_order_relaxed)`, which
wraps the 32-bit slot with two's-complement semantics. -/
def increment (c : ApproximateConcurrentCounterArray) (thread_id : Nat) :
    ApproximateConcurrentCounterArray :=
  { c with thread_counters := fun j =>
      if j = thread_id then (c.thread_counters j + 1) % intWrap
      else c.thread_counters j }

/-- `get_approximate_count()` (lines 74–80): a loop accumulating
`thread_counters[i].load(...)` for `i` in `[0, num_threads)` into a
32-bit `int` `total`, each addition wrapping. -/
def get_approximate_count (c : ApproximateConcurrentCounterArray) : Nat :=
  (List.range c.num_threads).foldl
    (fun total i => (total + c.thread_counters i) % intWrap) 0

/-- `get_thread_count(thread_id)` (lines 82–84). -/
def get_thread_count (c : ApproximateConcurrentCounterArray)
    (thread_id : Nat) : Nat :=
  c.thread_counters thread_id

end ApproximateConcurrentCounterArray

/-- A read/write operation on a counter bank, used to compare the two
variants over arbitrary completed operation sequences. -/
inductive CounterOp where
  | inc (thread_id : Nat)
  | slot (thread_id : Nat)
  | total
deriving Repr, DecidableEq

/-- Every thread id mentioned by the operation is below the capacity
`C` (the source treats out-of-range ids as a programming error). -/
def CounterOp.inRange (C : Nat) : CounterOp → Prop
  | .inc t => t < C
  | .slot t => t < C
  | .total => True

instance (C : Nat) (op : CounterOp) : Decidable (op.inRange C) := by
  cases op <;> simp [CounterOp.inRange] <;> infer_instance

/-- Run a sequence of operations on the vector-backed counter, collecting
the value returned by each read (`slot` or `total`) operation. -/
def runVec (c : ApproximateConcurrentCounter) : List CounterOp → List Nat
  | [] => []
  | .inc t :: ops => runVec (c.increment t) ops
  | .slot t :: ops => c.get_thread_count t :: runVec c ops
  | .total :: ops => c.get_approximate_count :: runVec c ops

/-- Run a sequence of operations on the array-backed counter, collecting
the value returned by each read operation. -/
def runArr (c : ApproximateConcurrentCounterArray) : List CounterOp → List Nat
  | [] => []
  | .inc t :: ops => runArr (c.increment t) ops
  | .slot t :: ops => c.get_thread_count t :: runArr c ops
  | .total :: ops => c.get_approximate_count :: runArr c ops

/-! ### Helper lemmas about `List` used by the counter proofs -/

lemma intWrap_pos : 0 < intWrap := by
  unfold intWrap
  omega

/-- The wrapping accumulation loop of `get_approximate_count` computes
the sum of the per-slot reads modulo `2 ^ 32`. -/
lemma foldl_add_mod_eq_sum (f : Nat → Nat) :
    ∀ (l : List Nat) (a : Nat), a < intWrap →
      l.foldl (fun total i => (total + f i) % intWrap) a =
        (a + (l.map f).sum) % intWrap := by
  intro l
  induction l with
  | nil =>
    intro a ha
    simp [Nat.mod_eq_of_lt ha]
  | cons x l ih =>
    intro a ha
    rw [List.foldl_cons, ih ((a + f x) % intWrap) (Nat.mod_lt _ intWrap_pos),
      Nat.mod_add_mod, List.map_cons, List.sum_cons, Nat.add_assoc]

/-- Reading every index of a list in order reproduces the list. -/
lemma range_map_getD :
    ∀ (l : List Nat), (List.range l.length).map (fun i => l.getD i 0) = l := by
  intro l
  induction l with
  | nil => simp
  | cons a l ih =>
    simp only [List.length_cons, List.range_succ_eq_map, List.map_cons,
      List.map_map]
    congr 1

lemma getD_set_self :
    ∀ (l : List Nat) (i v : Nat), i < l.length → (l.set i v).getD i 0 = v := by
  intro l
  induction l with
  | nil => intro i v h; simp at h
  | cons a l ih =>
    intro i v h
    cases i with
    | zero => rfl
    | succ i =>
      simp only [List.set_cons_succ, List.getD_cons_succ]
      exact ih i v (by simpa using h)

lemma getD_set_ne :
    ∀ (l : List Nat) (i j v : Nat), i ≠ j → (l.set i v).getD j 0 = l.getD j 0 := by
  intro l
  induction l with
  | nil => intro i j v _; simp [List.getD]
  | cons a l ih =>
    intro i j v hne
    cases i with
    | zero =>
      cases j with
      | zero => exact absurd rfl hne
      | succ j => rfl
    | succ i =>
      cases j with
      | zero => rfl
      | succ j =>
        simp only [List.set_cons_succ, List.getD_cons_succ]
        exact ih i j v (fun h => hne (congrArg Nat.succ h))

/-- Wrapping an in-range slot up by one bumps the total sum by one,
modulo `2 ^ 32`. -/
lemma sum_set_getD_mod :
    ∀ (l : List Nat) (i : Nat), i < l.length →
      (l.set i ((l.getD i 0 + 1) % intWrap)).sum % intWrap =
        (l.sum + 1) % intWrap := by
  intro l
  induction l with
  | nil => intro i h; simp at h
  | cons a l ih =>
    intro i h
    cases i with
    | zero =>
      simp only [List.getD_cons_zero, List.set_cons_zero, List.sum_cons]
      rw [Nat.mod_add_mod]
      congr 1
      omega
    | succ i =>
      simp only [List.getD_cons_succ, List.set_cons_succ, List.sum_cons]
      have hih := ih i (by simpa using h)
      calc (a + (l.set i ((l.getD i 0 + 1) % intWrap)).sum) % intWrap
          = (a % intWrap +
              (l.set i ((l.getD i 0 + 1) % intWrap)).sum % intWrap) %
            intWrap := by
            rw [Nat.add_mod]
        _ = (a % intWrap + (l.sum + 1) % intWrap) % intWrap := by rw [hih]
        _ = (a + (l.sum + 1)) % intWrap := by rw [← Nat.add_mod]
        _ = (a + l.sum + 1) % intWrap := by rw [Nat.add_assoc]

lemma getD_replicate_zero :
    ∀ (n i : Nat), (List.replicate n (0 : Nat)).getD i 0 = 0 := by
  intro n
  induction n with
  | zero => intro i; simp [List.getD]
  | succ n ih =>
    intro i
    cases i with
    | zero => rfl
    | succ i => exact ih i

/-! ### Basic facts about the vector-backed counter -/

/-- A counter bank is well formed when its stored thread count matches
the number of allocated slots, as the constructor guarantees. -/
def ApproximateConcurrentCounter.wf (c : ApproximateConcurrentCounter) : Prop :=
  c.num_threads = c.thread_counters.length

lemma wf_construct (C : Nat) : (ApproximateConcurrentCounter.construct C).wf := by
  simp [ApproximateConcurrentCounter.wf, ApproximateConcurrentCounter.construct]

lemma wf_increment (c : ApproximateConcurrentCounter) (t : Nat) (h : c.wf) :
    (c.increment t).wf := by
  simpa [ApproximateConcurrentCounter.wf, ApproximateConcurrentCounter.increment]
    using h

/-- On a well-formed bank, the aggregation loop computes the sum of all
slots modulo `2 ^ 32`. -/
lemma get_approximate_count_eq_sum (c : ApproximateConcurrentCounter)
    (h : c.wf) :
    c.get_approximate_count = c.thread_counters.sum % intWrap := by
  unfold ApproximateConcurrentCounter.get_approximate_count
  rw [h, foldl_add_mod_eq_sum _ _ 0 intWrap_pos, range_map_getD]
  rw [Nat.zero_add]

lemma sum_increment_mod (c : ApproximateConcurrentCounter) (t : Nat)
    (hwf : c.wf) (ht : t < c.num_threads) :
    (c.increment t).thread_counters.sum % intWrap =
      (c.thread_counters.sum + 1) % intWrap := by
  have hlen : t < c.thread_counters.length := hwf ▸ ht
  exact sum_set_getD_mod c.thread_counters t hlen

lemma num_threads_increment (c : ApproximateConcurrentCounter) (t : Nat) :
    (c.increment t).num_threads = c.num_threads := rfl

/-- Folding a whole batch of in-range increments adds the batch size to
the sum of the slots, modulo `2 ^ 32`. -/
lemma total_after_increments :
    ∀ (ws : List Nat) (c : ApproximateConcurrentCounter), c.wf →
      (∀ w ∈ ws, w < c.num_threads) →
      (ws.foldl (fun s w => s.increment w) c).get_approximate_count =
        (c.thread_counters.sum + ws.length) % intWrap := by
  intro ws
  induction ws with
  | nil =>
    intro c hwf _
    simp only [List.foldl_nil, List.length_nil, Nat.add_zero]
    exact get_approximate_count_eq_sum c hwf
  | cons w ws ih =>
    intro c hwf hin
    have hw : w < c.num_threads := hin w (List.mem_cons_self w ws)
    have h1 := ih (c.increment w) (wf_increment c w hwf)
      (fun x hx => by
        rw [num_threads_increment]
        exact hin x (List.mem_cons_of_mem w hx))
    simp only [List.foldl_cons, List.length_cons]
    rw [h1]
    have hmod := sum_increment_mod c w hwf hw
    unfold intWrap at hmod ⊢
    omega

/-! ### Relating the two counter variants -/

/-- The coupling between a vector-backed bank and an array-backed bank at
capacity `C`: equal thread counts and slot-for-slot equal values on the
live slots. -/
def CounterRel (C : Nat) (v : ApproximateConcurrentCounter)
    (a : ApproximateConcurrentCounterArray) : Prop :=
  v.num_threads = C ∧ a.num_threads = C ∧ v.thread_counters.length = C ∧
    ∀ i, i < C → v.thread_counters.getD i 0 = a.thread_counters i

lemma CounterRel.increment {C : Nat} {v : ApproximateConcurrentCounter}
    {a : ApproximateConcurrentCounterArray} (h : CounterRel C v a)
    (t : Nat) (ht : t < C) : CounterRel C (v.increment t) (a.increment t) := by
  obtain ⟨hv, ha, hlen, hslots⟩ := h
  refine ⟨hv, ha, ?_, ?_⟩
  · simpa [ApproximateConcurrentCounter.increment] using hlen
  · intro i hi
    by_cases hit : i = t
    · subst hit
      have hl : i < v.thread_counters.length := hlen ▸ hi
      show (v.thread_counters.set i
          ((v.thread_counters.getD i 0 + 1) % intWrap)).getD i 0 =
        if i = i then (a.thread_counters i + 1) % intWrap
        else a.thread_counters i
      rw [getD_set_self _ _ _ hl, if_pos rfl, hslots i hi]
    · show (v.thread_counters.set t
          ((v.thread_counters.getD t 0 + 1) % intWrap)).getD i 0 =
        if i = t then (a.thread_counters i + 1) % intWrap
        else a.thread_counters i
      rw [getD_set_ne _ _ _ _ (fun h => hit h.symm), if_neg hit, hslots i hi]

lemma CounterRel.slot_eq {C : Nat} {v : ApproximateConcurrentCounter}
    {a : ApproximateConcurrentCounterArray} (h : CounterRel C v a)
    (t : Nat) (ht : t < C) : v.get_thread_count t = a.get_thread_count t :=
  h.2.2.2 t ht

lemma CounterRel.total_eq {C : Nat} {v : ApproximateConcurrentCounter}
    {a : ApproximateConcurrentCounterArray} (h : CounterRel C v a) :
    v.get_approximate_count = a.get_approximate_count := by
  obtain ⟨hv, ha, _, hslots⟩ := h
  unfold ApproximateConcurrentCounter.get_approximate_count
    ApproximateConcurrentCounterArray.get_approximate_count
  rw [hv, ha,
    foldl_add_mod_eq_sum (fun i => v.thread_counters.getD i 0)
      (List.range C) 0 intWrap_pos,
    foldl_add_mod_eq_sum a.thread_counters (List.range C) 0 intWrap_pos]
  have : (List.range C).map (fun i => v.thread_counters.getD i 0) =
      (List.range C).map a.thread_counters := by
    apply List.map_congr_left
    intro i hi
    exact hslots i (List.mem_range.mp hi)
  rw [this]

lemma runs_agree :
    ∀ (ops : List CounterOp) (C : Nat) (v : ApproximateConcurrentCounter)
      (a : ApproximateConcurrentCounterArray), CounterRel C v a →
      (∀ op ∈ ops, op.inRange C) → runVec v ops = runArr a ops := by
  intro ops
  induction ops with
  | nil => intro C v a _ _; rfl
  | cons op ops ih =>
    intro C v a hrel hin
    have hops : ∀ op ∈ ops, op.inRange C :=
      fun x hx => hin x (List.mem_cons_of_mem op hx)
    have hop : op.inRange C := hin op (List.mem_cons_self op ops)
    cases op with
    | inc t =>
      simp only [runVec, runArr]
      exact ih C _ _ (hrel.increment t hop) hops
    | slot t =>
      simp only [runVec, runArr]
      rw [hrel.slot_eq t hop, ih C v a hrel hops]
    | total =>
      simp only [runVec, runArr]
      rw [hrel.total_eq, ih C v a hrel hops]

/-! ### Claims C1, C2, C4, C6 -/

/-- A single-slot bank hit by `n` increments of worker 0 holds the
wrapped count `(v + n) % 2 ^ 32`. -/
lemma fold_replicate_zero_increment :
    ∀ (n v : Nat), v < intWrap →
      (List.replicate n 0).foldl (fun s w => s.increment w)
        ({ thread_counters := [v], num_threads := 1 } :
          ApproximateConcurrentCounter) =
        { thread_counters := [(v + n) % intWrap], num_threads := 1 } := by
  intro n
  induction n with
  | zero =>
    intro v hv
    simp [Nat.mod_eq_of_lt hv]
  | succ n ih =>
    intro v hv
    rw [List.replicate_succ, List.foldl_cons]
    have hstep : ({ thread_counters := [v], num_threads := 1 } :
        ApproximateConcurrentCounter).increment 0 =
        { thread_counters := [(v + 1) % intWrap], num_threads := 1 } := rfl
    rw [hstep, ih _ (Nat.mod_lt _ intWrap_pos)]
    have harith : ((v + 1) % intWrap + n) % intWrap =
        (v + (n + 1)) % intWrap := by
      unfold intWrap
      omega
    rw [harith]

/-- Counterexample to claim C1 as stated: with capacity 1, a completed
sequence of `2 ^ 32` in-range increments (all by worker 0) wraps the
32-bit slot back to 0, so `total()` returns 0, not the sum of the
per-worker counts `2 ^ 32`. -/
theorem claim_C1_counterexample :
    (∀ w ∈ List.replicate 4294967296 0, w < 1) ∧
      ¬ ((List.replicate 4294967296 0).foldl (fun s w => s.increment w)
          (ApproximateConcurrentCounter.construct 1)).get_approximate_count =
        (List.replicate 4294967296 0).length := by
  constructor
  · intro w hw
    rw [List.eq_of_mem_replicate hw]
    omega
  · rw [List.length_replicate]
    rw [show ApproximateConcurrentCounter.construct 1 =
        { thread_counters := [0], num_threads := 1 } from rfl]
    rw [fold_replicate_zero_increment 4294967296 0 intWrap_pos]
    intro hcontra
    rw [show ((0 + 4294967296) % intWrap) = 0 by unfold intWrap; omega]
      at hcontra
    have : ({ thread_counters := [0], num_threads := 1 } :
        ApproximateConcurrentCounter).get_approximate_count = 0 := rfl
    omega

/-- Claim C1 as amended: for every capacity and every completed sequence
of in-range increments, `total()` returns the number of increment calls
(the sum of all per-worker counts `k_i`) reduced modulo `2 ^ 32` — hence
exactly `Σ k_i` whenever that sum fits in 32 bits. -/
theorem claim_C1_amended (C : Nat) (ws : List Nat)
    (hin : ∀ w ∈ ws, w < C) :
    (ws.foldl (fun s w => s.increment w)
      (ApproximateConcurrentCounter.construct C)).get_approximate_count =
      ws.length % intWrap := by
  have h := total_after_increments ws (ApproximateConcurrentCounter.construct C)
    (wf_construct C) (by simpa [ApproximateConcurrentCounter.construct] using hin)
  rw [h]
  have hzero : (List.replicate C (0 : Nat)).sum = 0 := by simp
  rw [show (ApproximateConcurrentCounter.construct C).thread_counters =
      List.replicate C 0 from rfl, hzero, Nat.zero_add]

theorem claim_C1_amended_witness :
    (∀ w ∈ [0, 1, 0, 2, 1], w < 3) ∧
      (([0, 1, 0, 2, 1] : List Nat).foldl (fun s w => s.increment w)
        (ApproximateConcurrentCounter.construct 3)).get_approximate_count =
        ([0, 1, 0, 2, 1] : List Nat).length % intWrap :=
  ⟨by decide, claim_C1_amended 3 [0, 1, 0, 2, 1] (by decide)⟩

/-- Claim C2: for every capacity `1 ≤ C ≤ 16` and every operation
sequence whose thread ids all lie in `[0, C)`, the vector-backed and the
array-backed counters return identical results for every read operation,
whatever indeterminate contents the raw array started with. -/
theorem claim_C2 (C : Nat) (ops : List CounterOp) (garbage : Nat → Nat)
    (a : ApproximateConcurrentCounterArray) (h1 : 1 ≤ C) (h16 : C ≤ 16)
    (hops : ∀ op ∈ ops, op.inRange C)
    (hcons : ApproximateConcurrentCounterArray.construct C garbage = .ok a) :
    runVec (ApproximateConcurrentCounter.construct C) ops = runArr a ops := by
  have hnot : ¬ C > ApproximateConcurrentCounterArray.MAX_THREADS := by
    simp [ApproximateConcurrentCounterArray.MAX_THREADS]
    omega
  rw [ApproximateConcurrentCounterArray.construct, if_neg hnot] at hcons
  have ha : a = { thread_counters := fun i => if i < C then 0 else garbage i
                  num_threads := C } := by
    cases hcons
    rfl
  subst ha
  apply runs_agree ops C _ _ _ hops
  refine ⟨rfl, rfl, by simp [ApproximateConcurrentCounter.construct], ?_⟩
  intro i hi
  simp [ApproximateConcurrentCounter.construct, getD_replicate_zero, hi]

theorem claim_C2_witness :
    (1 : Nat) ≤ 2 ∧ (2 : Nat) ≤ 16 ∧
      (∀ op ∈ [CounterOp.inc 0, CounterOp.slot 0, CounterOp.total,
        CounterOp.inc 1, CounterOp.inc 1, CounterOp.total],
        op.inRange 2) ∧
      ApproximateConcurrentCounterArray.construct 2 (fun _ => 7) =
        .ok { thread_counters := fun i => if i < 2 then 0 else 7
              num_threads := 2 } ∧
      runVec (ApproximateConcurrentCounter.construct 2)
          [CounterOp.inc 0, CounterOp.slot 0, CounterOp.total,
            CounterOp.inc 1, CounterOp.inc 1, CounterOp.total] =
        runArr { thread_counters := fun i => if i < 2 then 0 else 7
                 num_threads := 2 }
          [CounterOp.inc 0, CounterOp.slot 0, CounterOp.total,
            CounterOp.inc 1, CounterOp.inc 1, CounterOp.total] :=
  ⟨by decide, by decide, by decide, rfl,
    claim_C2 2 _ (fun _ => 7) _ (by decide) (by decide) (by decide) rfl⟩

/-- Claim C4: construction of the array-backed variant fails (throws
`std::invalid_argument`, the InvalidConfiguration condition) exactly when
the requested capacity exceeds the fixed bound 16, while the
dynamically-sized variant's constructor has no failure path and yields a
bank with `capacity` slots for every capacity. -/
theorem claim_C4 (C : Nat) (garbage : Nat → Nat) :
    ((∃ e, ApproximateConcurrentCounterArray.construct C garbage =
        .error e) ↔ C > 16) ∧
      (∀ a, ApproximateConcurrentCounterArray.construct C garbage = .ok a →
        a.num_threads = C) ∧
      (ApproximateConcurrentCounter.construct C).num_threads = C ∧
      (ApproximateConcurrentCounter.construct C).thread_counters.length = C := by
  refine ⟨⟨?_, ?_⟩, ?_, rfl, by simp [ApproximateConcurrentCounter.construct]⟩
  · rintro ⟨e, he⟩
    by_contra hle
    rw [ApproximateConcurrentCounterArray.construct,
      if_neg (by simpa [ApproximateConcurrentCounterArray.MAX_THREADS] using hle)]
      at he
    exact Except.noConfusion he
  · intro hgt
    exact ⟨"Too many threads", by
      rw [ApproximateConcurrentCounterArray.construct,
        if_pos (by simpa [ApproximateConcurrentCounterArray.MAX_THREADS] using hgt)]⟩
  · intro a ha
    by_cases hgt : C > ApproximateConcurrentCounterArray.MAX_THREADS
    · rw [ApproximateConcurrentCounterArray.construct, if_pos hgt] at ha
      exact Except.noConfusion ha
    · rw [ApproximateConcurrentCounterArray.construct, if_neg hgt] at ha
      cases ha
      rfl

/-- Counterexample to claim C6 as stated: the single-slot bank whose
slot holds the 32-bit pattern `2 ^ 32 - 1` — reached from a fresh bank by
`2 ^ 32 - 1` defined increments — does not gain exactly one on the next
`increment(0)`: `fetch_add` wraps the slot to 0. -/
theorem claim_C6_counterexample :
    (List.replicate 4294967295 0).foldl (fun s w => s.increment w)
        (ApproximateConcurrentCounter.construct 1) =
      { thread_counters := [4294967295], num_threads := 1 } ∧
      ({ thread_counters := [4294967295], num_threads := 1 } :
        ApproximateConcurrentCounter).wf ∧
      (0 : Nat) < ({ thread_counters := [4294967295], num_threads := 1 } :
        ApproximateConcurrentCounter).num_threads ∧
      ¬ (({ thread_counters := [4294967295], num_threads := 1 } :
            ApproximateConcurrentCounter).increment 0).get_thread_count 0 =
          ({ thread_counters := [4294967295], num_threads := 1 } :
            ApproximateConcurrentCounter).get_thread_count 0 + 1 := by
  refine ⟨?_, rfl, by decide, by decide⟩
  rw [show ApproximateConcurrentCounter.construct 1 =
      { thread_counters := [0], num_threads := 1 } from rfl]
  rw [fold_replicate_zero_increment 4294967295 0 intWrap_pos]
  rw [show ((0 + 4294967295) % intWrap) = 4294967295 by unfold intWrap; omega]

/-- Claim C6 as amended: on either variant, an in-range
`increment(workerId)` sets slot `workerId` to its old value plus one
modulo `2 ^ 32` — exactly one more whenever the old value is below
`2 ^ 32 - 1` — and leaves every other slot unchanged («well formed» for
the vector variant meaning the constructor's slot count matches the
vector length). -/
theorem claim_C6_amended :
    (∀ (c : ApproximateConcurrentCounter) (tid : Nat), c.wf →
      tid < c.num_threads →
      (c.increment tid).get_thread_count tid =
          (c.get_thread_count tid + 1) % intWrap ∧
        ∀ j, j ≠ tid →
          (c.increment tid).get_thread_count j = c.get_thread_count j) ∧
    (∀ (a : ApproximateConcurrentCounterArray) (tid : Nat),
      tid < a.num_threads →
      (a.increment tid).get_thread_count tid =
          (a.get_thread_count tid + 1) % intWrap ∧
        ∀ j, j ≠ tid →
          (a.increment tid).get_thread_count j = a.get_thread_count j) := by
  constructor
  · intro c tid hwf htid
    constructor
    · have hl : tid < c.thread_counters.length :=
        hwf ▸ htid
      simp only [ApproximateConcurrentCounter.increment,
        ApproximateConcurrentCounter.get_thread_count]
      exact getD_set_self _ _ _ hl
    · intro j hj
      simp only [ApproximateConcurrentCounter.increment,
        ApproximateConcurrentCounter.get_thread_count]
      exact getD_set_ne _ _ _ _ (fun h => hj h.symm)
  · intro a tid _
    constructor
    · simp [ApproximateConcurrentCounterArray.increment,
        ApproximateConcurrentCounterArray.get_thread_count]
    · intro j hj
      simp [ApproximateConcurrentCounterArray.increment,
        ApproximateConcurrentCounterArray.get_thread_count, hj]

theorem claim_C6_amended_witness :
    ((ApproximateConcurrentCounter.construct 3).increment 1).get_thread_count 1 =
        ((ApproximateConcurrentCounter.construct 3).get_thread_count 1 + 1) %
          intWrap ∧
      ((ApproximateConcurrentCounter.construct 3).increment 1).get_thread_count 0 =
        (ApproximateConcurrentCounter.construct 3).get_thread_count 0 ∧
      ((ApproximateConcurrentCounterArray.increment
          { thread_counters := fun _ => 0, num_threads := 3 } 1).get_thread_count 1 =
        ((ApproximateConcurrentCounterArray.get_thread_count
          { thread_counters := fun _ => 0, num_threads := 3 } 1) + 1) % intWrap) := by
  refine ⟨(claim_C6_amended.1 (ApproximateConcurrentCounter.construct 3) 1
      (wf_construct 3) (by decide)).1,
    (claim_C6_amended.1 (ApproximateConcurrentCounter.construct 3) 1
      (wf_construct 3) (by decide)).2 0 (by decide),
    (claim_C6_amended.2 { thread_counters := fun _ => 0, num_threads := 3 } 1
      (by decide)).1⟩

/-! ## Embedding of `src/hand_lock_ll.cpp`

Heap pointers are modelled as indices into `nodes`, the list of all
nodes in allocation order; `Option.none` is the null pointer.  Each
node carries a `std::mutex`; the sequential model does not keep lock
state (every acquired lock is released within the same operation) but
`insert` records which nodes' locks it acquires. -/

/-- Embedding of `node_t` (`src/hand_lock_ll.cpp`, lines 8–12): a key
and a next pointer (the `n_lock` mutex holds no data). -/
structure node_t where
  key : Int
  next : Option Nat
deriving Repr, DecidableEq

/-- Embedding of class `List` (lines 14–17): the node heap, the
head and tail pointers, and the `size` member initialized to `1000`.
Named `LinkedList` because `List` is taken by Lean's list type. -/
structure LinkedList where
  nodes : List node_t
  head : Option Nat
  tail : Option Nat
  size : Int
deriving Repr, DecidableEq

namespace LinkedList

/-- A default-constructed `List{}` (line 69): in-class initializers give
null head and tail and `size = 1000`. -/
def empty : LinkedList :=
  { nodes := [], head := none, tail := none, size := 1000 }

/-- `insert(key)` (lines 20–43).  `allocOk` models whether the
`new node_t` allocation is satisfied (the source checks the result
against `nullptr` and returns `-1` on failure).  Returns the `int`
result code, the new state, and the trace of node indices whose
`n_lock` the call acquires. -/
def insert (l : LinkedList) (key : Int) (allocOk : Bool) :
    Int × LinkedList × List Nat :=
  if allocOk = false then
    (-1, l, [])
  else
    let p := l.nodes.length
    let nodes1 := l.nodes ++ [{ key := key, next := none }]
    match l.tail with
    | none =>
      (0, { l with nodes := nodes1, head := some p, tail := some p }, [])
    | some t =>
      match nodes1.get? t with
      | some nd =>
        (0, { l with nodes := nodes1.set t { nd with next := some p }
                     tail := some p }, [t])
      | none =>
        -- dangling tail pointer: dereferencing it is undefined behaviour
        -- in the source; unreachable from any constructed list
        (0, { l with nodes := nodes1, tail := some p }, [t])

/-- The visiting loop of `traverse()` (lines 46–54), with explicit fuel
(the loop of the source terminates because reachable chains are acyclic;
`fuel = nodes.length` suffices for every reachable state).  Collects the
keys passed to `std::cout`. -/
def traverseAux (nodes : List node_t) : Option Nat → Nat → List Int
  | _, 0 => []
  | none, _ => []
  | some p, fuel + 1 =>
    match nodes.get? p with
    | none => []
    | some nd => nd.key :: traverseAux nodes nd.next fuel

/-- `traverse()` (lines 46–54): walk from `head`, printing each key. -/
def traverse (l : LinkedList) : List Int :=
  traverseAux l.nodes l.head l.nodes.length

/-- The destructor `~List()` (lines 59–65): walks `head` down the chain
(deleting each node; deallocation itself has no observable effect in the
model).  Only the `head` pointer is written; `size`, `tail` and the heap
contents are untouched. -/
def destructAux (nodes : List node_t) : Option Nat → Nat → Option Nat
  | none, _ => none
  | some p, 0 => some p
  | some p, fuel + 1 =>
    match nodes.get? p with
    | none => some p
    | some nd => destructAux nodes nd.next fuel

/-- The state after the destructor's loop has run. -/
def destruct (l : LinkedList) : LinkedList :=
  { l with head := destructAux l.nodes l.head l.nodes.length }

end LinkedList

/-- An operation on the list: an `insert` call (with the fate of its
allocation) or a `traverse` call (which reads but never writes the
state). -/
inductive ListOp where
  | ins (key : Int) (allocOk : Bool)
  | trav
deriving Repr, DecidableEq

/-- State reached from a default-constructed list after a sequence of
operations. -/
def runListOps (ops : List ListOp) : LinkedList :=
  ops.foldl
    (fun l op =>
      match op with
      | .ins k b => (l.insert k b).2.1
      | .trav => l)
    LinkedList.empty

/-- The keys whose `insert` calls succeeded, in call order. -/
def opKeys : List ListOp → List Int
  | [] => []
  | .ins k true :: ops => k :: opKeys ops
  | .ins _ false :: ops => opKeys ops
  | .trav :: ops => opKeys ops

/-- The state reached after successfully appending `ks` in order. -/
def runAppends (ks : List Int) : LinkedList :=
  ks.foldl (fun l k => (l.insert k true).2.1) LinkedList.empty

/-- The explicit shape of the heap after appending `ks` in order: node
`i` holds key `ks[i]` and points to node `i + 1`, the last node points
nowhere. -/
def chainNodes (ks : List Int) : List node_t :=
  (List.range ks.length).map fun i =>
    { key := ks.getD i 0
      next := if i + 1 < ks.length then some (i + 1) else none }

/-- The canonical list state after appending `ks` in order. -/
def canonicalList (ks : List Int) : LinkedList :=
  { nodes := chainNodes ks
    head := if ks.length = 0 then none else some 0
    tail := if ks.length = 0 then none else some (ks.length - 1)
    size := 1000 }

/-! ### The canonical shape of reachable list states -/

lemma chainNodes_length (ks : List Int) : (chainNodes ks).length = ks.length := by
  simp [chainNodes]

lemma chainNodes_getElem? (ks : List Int) (i : Nat) (h : i < ks.length) :
    (chainNodes ks)[i]? =
      some { key := ks.getD i 0
             next := if i + 1 < ks.length then some (i + 1) else none } := by
  simp [chainNodes, List.getElem?_range h]

lemma getD_append_left (l : List Int) (k : Int) (i : Nat) (h : i < l.length) :
    (l ++ [k]).getD i 0 = l.getD i 0 := by
  simp [List.getD_eq_getElem?_getD, List.getElem?_append_left h]

lemma getD_append_length (l : List Int) (k : Int) :
    (l ++ [k]).getD l.length 0 = k := by
  simp [List.getD_eq_getElem?_getD, List.getElem?_concat_length]

/-- Appending a node to the canonical chain and wiring the old last
node's `next` to it yields the canonical chain of the extended key
sequence. -/
lemma chainNodes_append_last (ks : List Int) (k : Int) (m : Nat)
    (hm : ks.length = m + 1) :
    (chainNodes ks ++ [({ key := k, next := none } : node_t)]).set m
        ({ key := ks.getD m 0, next := some (m + 1) } : node_t) =
      chainNodes (ks ++ [k]) := by
  apply List.ext_getElem?
  intro i
  have hlen : (chainNodes ks).length = m + 1 := by rw [chainNodes_length, hm]
  have hlen2 : (ks ++ [k]).length = m + 2 := by simp [hm]
  by_cases hi : i < m + 2
  · by_cases him : i = m
    · subst him
      rw [List.getElem?_set_self (by simp [hlen]; omega)]
      rw [chainNodes_getElem? _ _ (by omega)]
      have hkey : (ks ++ [k]).getD i 0 = ks.getD i 0 :=
        getD_append_left ks k i (by omega)
      rw [hkey, hlen2, if_pos (by omega)]
    · rw [List.getElem?_set_ne (fun h => him h.symm)]
      by_cases hlt : i < m + 1
      · rw [List.getElem?_append_left (by omega),
          chainNodes_getElem? _ _ (by omega),
          chainNodes_getElem? _ _ (by omega)]
        have hkey : (ks ++ [k]).getD i 0 = ks.getD i 0 :=
          getD_append_left ks k i (by omega)
        rw [hkey, hm, hlen2, if_pos (by omega), if_pos (by omega)]
      · have hi1 : i = m + 1 := by omega
        subst hi1
        rw [List.getElem?_append_right (by omega)]
        rw [chainNodes_getElem? _ _ (by omega)]
        have hkey : (ks ++ [k]).getD (m + 1) 0 = k := by
          have := getD_append_length ks k
          rwa [hm] at this
        rw [hkey, hlen, hlen2, if_neg (by omega), Nat.sub_self]
        rfl
  · rw [List.getElem?_eq_none (by simp [hlen]; omega),
      List.getElem?_eq_none (by rw [chainNodes_length]; omega)]

/-- One successful `insert` call on a canonical state produces the
canonical state of the extended key sequence, reporting success and
locking exactly the old tail (nothing on the first insertion). -/
lemma insert_canonical (ks : List Int) (k : Int) :
    (canonicalList ks).insert k true =
      (0, canonicalList (ks ++ [k]),
        if ks.length = 0 then [] else [ks.length - 1]) := by
  by_cases h0 : ks.length = 0
  · have hnil : ks = [] := List.eq_nil_of_length_eq_zero h0
    subst hnil
    simp [canonicalList, chainNodes, LinkedList.insert, List.range_succ]
  · obtain ⟨m, hm⟩ : ∃ m, ks.length = m + 1 :=
      ⟨ks.length - 1, by omega⟩
    have hcan : canonicalList ks =
        { nodes := chainNodes ks, head := some 0, tail := some m
          size := 1000 } := by
      simp [canonicalList, hm]
    have hget : (chainNodes ks ++ [({ key := k, next := none } : node_t)]).get? m =
        some ({ key := ks.getD m 0, next := none } : node_t) := by
      rw [List.get?_eq_getElem?,
        List.getElem?_append_left (by rw [chainNodes_length, hm]; omega),
        chainNodes_getElem? _ _ (by omega)]
      simp [hm]
    rw [hcan]
    show LinkedList.insert
        { nodes := chainNodes ks, head := some 0, tail := some m
          size := 1000 } k true = _
    unfold LinkedList.insert
    simp only [Bool.true_eq_false, if_false, hget, chainNodes_length, hm]
    rw [chainNodes_append_last ks k m hm]
    simp [canonicalList, hm, List.getD_eq_getElem?_getD]

/-- An `insert` whose allocation fails leaves the state unchanged. -/
lemma insert_false_state (l : LinkedList) (k : Int) :
    (l.insert k false).2.1 = l := rfl

/-- Running any operation sequence from a canonical state reaches the
canonical state of the extended key sequence. -/
lemma foldl_step_canonical :
    ∀ (ops : List ListOp) (ks : List Int),
      ops.foldl
        (fun l op =>
          match op with
          | .ins k b => (l.insert k b).2.1
          | .trav => l)
        (canonicalList ks) = canonicalList (ks ++ opKeys ops) := by
  intro ops
  induction ops with
  | nil => intro ks; simp [opKeys]
  | cons op ops ih =>
    intro ks
    cases op with
    | ins k b =>
      cases b with
      | false =>
        simp only [List.foldl_cons, insert_false_state]
        rw [ih ks]
        rfl
      | true =>
        simp only [List.foldl_cons]
        have hstep : ((canonicalList ks).insert k true).2.1 =
            canonicalList (ks ++ [k]) := by
          rw [insert_canonical]
        rw [hstep, ih (ks ++ [k])]
        simp [opKeys]
    | trav =>
      simp only [List.foldl_cons]
      rw [ih ks]
      rfl

lemma canonicalList_nil : canonicalList [] = LinkedList.empty := by
  simp [canonicalList, chainNodes, LinkedList.empty]

/-- Every state reachable from a default-constructed list is the
canonical state of the keys successfully inserted so far. -/
lemma runListOps_canonical (ops : List ListOp) :
    runListOps ops = canonicalList (opKeys ops) := by
  have h := foldl_step_canonical ops []
  rw [List.nil_append] at h
  rw [runListOps, ← canonicalList_nil]
  exact h

lemma foldl_append_canonical :
    ∀ (ks acc : List Int),
      ks.foldl (fun l k => (l.insert k true).2.1) (canonicalList acc) =
        canonicalList (acc ++ ks) := by
  intro ks
  induction ks with
  | nil => intro acc; simp
  | cons k ks ih =>
    intro acc
    simp only [List.foldl_cons]
    have hstep : ((canonicalList acc).insert k true).2.1 =
        canonicalList (acc ++ [k]) := by
      rw [insert_canonical]
    rw [hstep, ih (acc ++ [k])]
    simp

/-- A run of successful appends reaches the canonical state of its key
sequence. -/
lemma runAppends_canonical (ks : List Int) :
    runAppends ks = canonicalList ks := by
  have h := foldl_append_canonical ks []
  rw [List.nil_append] at h
  rw [runAppends, ← canonicalList_nil]
  exact h

lemma traverseAux_none (nodes : List node_t) (fuel : Nat) :
    LinkedList.traverseAux nodes none fuel = [] := by
  cases fuel <;> rfl

/-- Walking the canonical chain from node `i` with enough fuel yields the
keys from position `i` on. -/
lemma traverseAux_chain (ks : List Int) :
    ∀ (fuel i : Nat), i < ks.length → ks.length - i ≤ fuel →
      LinkedList.traverseAux (chainNodes ks) (some i) fuel = ks.drop i := by
  intro fuel
  induction fuel with
  | zero => intro i hi hf; omega
  | succ fuel ih =>
    intro i hi hf
    have hg : (chainNodes ks).get? i =
        some ({ key := ks.getD i 0
                next := if i + 1 < ks.length then some (i + 1) else none } :
              node_t) := by
      rw [List.get?_eq_getElem?, chainNodes_getElem? _ _ hi]
    have hdrop : ks.drop i = ks.getD i 0 :: ks.drop (i + 1) := by
      rw [List.getD_eq_getElem?_getD, List.getElem?_eq_getElem hi]
      exact List.drop_eq_getElem_cons hi
    by_cases h1 : i + 1 < ks.length
    · rw [LinkedList.traverseAux, hg]
      simp only [if_pos h1]
      rw [ih (i + 1) h1 (by omega), hdrop]
    · rw [LinkedList.traverseAux, hg]
      simp only [if_neg h1]
      rw [traverseAux_none, hdrop]
      have : i + 1 = ks.length := by omega
      rw [this, List.drop_length]

/-- Traversing the canonical state of `ks` visits exactly `ks`. -/
lemma traverse_canonical (ks : List Int) :
    (canonicalList ks).traverse = ks := by
  cases ks with
  | nil => rfl
  | cons a tl =>
    show LinkedList.traverseAux (canonicalList (a :: tl)).nodes
      (canonicalList (a :: tl)).head (canonicalList (a :: tl)).nodes.length = _
    have hh : (canonicalList (a :: tl)).head = some 0 := by
      simp [canonicalList]
    have hn : (canonicalList (a :: tl)).nodes = chainNodes (a :: tl) := rfl
    rw [hn, hh, chainNodes_length]
    have h := traverseAux_chain (a :: tl) (a :: tl).length 0
      (by simp) (by omega)
    simpa using h

/-- Following `next` links `k` times from a node pointer. -/
def followN (nodes : List node_t) : Option Nat → Nat → Option Nat
  | p, 0 => p
  | none, _ + 1 => none
  | some i, k + 1 =>
    match nodes.get? i with
    | none => none
    | some nd => followN nodes nd.next k

/-- In the canonical chain, `k` steps from node `i` land on node
`i + k`. -/
lemma followN_chain (ks : List Int) :
    ∀ (k i : Nat), i < ks.length → i + k < ks.length →
      followN (chainNodes ks) (some i) k = some (i + k) := by
  intro k
  induction k with
  | zero => intro i _ _; rfl
  | succ k ih =>
    intro i hi hik
    have hg : (chainNodes ks).get? i =
        some ({ key := ks.getD i 0
                next := if i + 1 < ks.length then some (i + 1) else none } :
              node_t) := by
      rw [List.get?_eq_getElem?, chainNodes_getElem? _ _ hi]
    rw [followN, hg]
    simp only [if_pos (show i + 1 < ks.length by omega)]
    rw [ih (i + 1) (by omega) (by omega)]
    congr 1
    omega

/-! ### Claims C3, C5, C7, C8, C9, C10 -/

/-- Claim C3: a sequence of appends with no concurrency followed by a
traverse visits exactly the appended keys in insertion order; in
particular `append(5); append(6); traverse()` visits `[5, 6]`. -/
theorem claim_C3 :
    (∀ ks : List Int, (runAppends ks).traverse = ks) ∧
      (runAppends [5, 6]).traverse = [5, 6] := by
  have h : ∀ ks : List Int, (runAppends ks).traverse = ks := by
    intro ks
    rw [runAppends_canonical, traverse_canonical]
  exact ⟨h, h [5, 6]⟩

/-- Claim C5: `insert` returns `0` (success) or surfaces the allocation
failure code `-1`, the latter exactly when the node allocation cannot be
satisfied (in which case the list is unchanged); no other outcome is
possible. -/
theorem claim_C5 (l : LinkedList) (k : Int) (b : Bool) :
    ((l.insert k b).1 = 0 ∨ (l.insert k b).1 = -1) ∧
      ((l.insert k b).1 = -1 ↔ b = false) ∧
      (b = false → (l.insert k b).2.1 = l) := by
  cases b with
  | false =>
    refine ⟨Or.inr rfl, by simp [LinkedList.insert], fun _ => rfl⟩
  | true =>
    have h0 : (l.insert k true).1 = 0 := by
      cases htail : l.tail with
      | none => simp [LinkedList.insert, htail]
      | some t =>
        cases hg : (l.nodes ++ [({ key := k, next := none } : node_t)])[t]?
          with
        | none => simp [LinkedList.insert, htail, List.get?_eq_getElem?, hg]
        | some nd => simp [LinkedList.insert, htail, List.get?_eq_getElem?, hg]
    refine ⟨Or.inl h0, ?_, fun hfalse => Bool.noConfusion hfalse⟩
    rw [h0]
    simp

/-- Claim C7: inserting into a list without a tail makes the freshly
allocated node (holding the given key, with a null `next`) both head and
tail, and the call acquires no lock. -/
theorem claim_C7 (l : LinkedList) (k : Int) (htail : l.tail = none) :
    (l.insert k true).1 = 0 ∧
      (l.insert k true).2.1.head = some l.nodes.length ∧
      (l.insert k true).2.1.tail = some l.nodes.length ∧
      (l.insert k true).2.1.nodes.get? l.nodes.length =
        some ({ key := k, next := none } : node_t) ∧
      (l.insert k true).2.2 = [] := by
  refine ⟨?_, ?_, ?_, ?_, ?_⟩ <;>
    simp [LinkedList.insert, htail, List.get?_eq_getElem?,
      List.getElem?_concat_length]

theorem claim_C7_witness :
    LinkedList.empty.tail = none ∧
      (LinkedList.empty.insert 5 true).1 = 0 ∧
      (LinkedList.empty.insert 5 true).2.1.head =
        some LinkedList.empty.nodes.length ∧
      (LinkedList.empty.insert 5 true).2.1.tail =
        some LinkedList.empty.nodes.length ∧
      (LinkedList.empty.insert 5 true).2.1.nodes.get?
          LinkedList.empty.nodes.length =
        some ({ key := 5, next := none } : node_t) ∧
      (LinkedList.empty.insert 5 true).2.2 = [] :=
  ⟨rfl, claim_C7 LinkedList.empty 5 rfl⟩

/-- Claim C8: across any reachable state and any further `insert`, an
existing node keeps its key, and a `next` link that already points to a
successor is never changed (in particular never reset to null). -/
theorem claim_C8 (ops : List ListOp) (k : Int) (b : Bool) (i : Nat)
    (nd nd' : node_t)
    (hbefore : (runListOps ops).nodes.get? i = some nd)
    (hafter : ((runListOps ops).insert k b).2.1.nodes.get? i = some nd') :
    nd'.key = nd.key ∧ ∀ q, nd.next = some q → nd'.next = some q := by
  rw [runListOps_canonical] at hbefore hafter
  revert hbefore hafter
  generalize opKeys ops = ks
  intro hbefore hafter
  have hbefore' : (chainNodes ks)[i]? = some nd := by
    rw [← List.get?_eq_getElem?]
    exact hbefore
  have hi : i < ks.length := by
    by_contra hge
    rw [List.getElem?_eq_none (by rw [chainNodes_length]; omega)] at hbefore'
    exact Option.noConfusion hbefore'
  rw [chainNodes_getElem? _ _ hi] at hbefore'
  have hnd : nd =
      ({ key := ks.getD i 0
         next := if i + 1 < ks.length then some (i + 1) else none } :
       node_t) :=
    (Option.some.inj hbefore').symm
  cases b with
  | false =>
    have hsame : ((canonicalList ks).insert k false).2.1 = canonicalList ks :=
      rfl
    rw [hsame] at hafter
    have : nd' = nd := by
      rw [hbefore] at hafter
      exact (Option.some.inj hafter).symm
    subst this
    exact ⟨rfl, fun q hq => hq⟩
  | true =>
    have hafter' : (chainNodes (ks ++ [k]))[i]? = some nd' := by
      have hstep : ((canonicalList ks).insert k true).2.1 =
          canonicalList (ks ++ [k]) := by
        rw [insert_canonical]
      rw [hstep] at hafter
      rw [← List.get?_eq_getElem?]
      exact hafter
    rw [chainNodes_getElem? _ _ (by simp; omega)] at hafter'
    have hnd' : nd' =
        ({ key := (ks ++ [k]).getD i 0
           next := if i + 1 < (ks ++ [k]).length then some (i + 1) else none } :
         node_t) :=
      (Option.some.inj hafter').symm
    constructor
    · rw [hnd, hnd']
      exact getD_append_left ks k i hi
    · intro q hq
      rw [hnd] at hq
      by_cases h1 : i + 1 < ks.length
      · rw [if_pos h1] at hq
        rw [hnd']
        simp only [List.length_append, List.length_cons, List.length_nil]
        rw [if_pos (by omega)]
        exact hq
      · rw [if_neg h1] at hq
        exact Option.noConfusion hq

theorem claim_C8_witness :
    (runListOps [ListOp.ins 5 true, ListOp.ins 6 true]).nodes.get? 0 =
        some ({ key := 5, next := some 1 } : node_t) ∧
      ((runListOps [ListOp.ins 5 true, ListOp.ins 6 true]).insert 7
          true).2.1.nodes.get? 0 =
        some ({ key := 5, next := some 1 } : node_t) ∧
      (({ key := 5, next := some 1 } : node_t).key =
          ({ key := 5, next := some 1 } : node_t).key ∧
        ∀ q, ({ key := 5, next := some 1 } : node_t).next = some q →
          ({ key := 5, next := some 1 } : node_t).next = some q) :=
  ⟨by decide, by decide,
    claim_C8 [ListOp.ins 5 true, ListOp.ins 6 true] 7 true 0
      { key := 5, next := some 1 } { key := 5, next := some 1 }
      (by decide) (by decide)⟩

/-- Claim C9: the `size` member starts at 1000 and is never touched by
`insert`, `traverse` (modelled as state-preserving) or the destructor;
it does not track the node count (after one append there is 1 node but
`size` is still 1000). -/
theorem claim_C9 :
    LinkedList.empty.size = 1000 ∧
      (∀ ops, (runListOps ops).size = 1000) ∧
      (∀ ops, ((runListOps ops).destruct).size = 1000) ∧
      (runListOps [ListOp.ins 5 true]).nodes.length = 1 ∧
      (runListOps [ListOp.ins 5 true]).size ≠ 1 := by
  have hsize : ∀ ops, (runListOps ops).size = 1000 := by
    intro ops
    rw [runListOps_canonical]
    rfl
  refine ⟨rfl, hsize, ?_, by decide, by decide⟩
  intro ops
  show (runListOps ops).size = 1000
  exact hsize ops

/-- Claim C10: in every reachable state, head and tail are null
together; when both are non-null the tail node is reachable from the
head by following `next` links and its own `next` is null. -/
theorem claim_C10 (ops : List ListOp) :
    ((runListOps ops).head = none ↔ (runListOps ops).tail = none) ∧
      (∀ h t, (runListOps ops).head = some h →
        (runListOps ops).tail = some t →
        (∃ k, followN (runListOps ops).nodes (some h) k = some t) ∧
          ∃ nd, (runListOps ops).nodes.get? t = some nd ∧ nd.next = none) := by
  rw [runListOps_canonical]
  revert ops
  intro ops
  generalize opKeys ops = ks
  by_cases h0 : ks.length = 0
  · constructor
    · simp [canonicalList, h0]
    · intro h t hh _
      rw [show (canonicalList ks).head = none by simp [canonicalList, h0]]
        at hh
      exact Option.noConfusion hh
  · obtain ⟨m, hm⟩ : ∃ m, ks.length = m + 1 := ⟨ks.length - 1, by omega⟩
    have hhead : (canonicalList ks).head = some 0 := by
      simp [canonicalList, h0]
    have htail : (canonicalList ks).tail = some m := by
      simp [canonicalList, h0, hm]
    constructor
    · rw [hhead, htail]
      simp
    · intro h t hh ht
      rw [hhead] at hh
      rw [htail] at ht
      have hh0 : h = 0 := (Option.some.inj hh).symm
      have htm : t = m := (Option.some.inj ht).symm
      rw [hh0, htm]
      constructor
      · refine ⟨m, ?_⟩
        have := followN_chain ks m 0 (by omega) (by omega)
        simpa using this
      · refine ⟨{ key := ks.getD m 0, next := none }, ?_, rfl⟩
        show (chainNodes ks).get? m = _
        rw [List.get?_eq_getElem?, chainNodes_getElem? _ _ (by omega)]
        rw [if_neg (by omega)]

theorem claim_C10_witness :
    (∃ k, followN (runListOps [ListOp.ins 5 true, ListOp.ins 6 true]).nodes
        (some 0) k = some 1) ∧
      ∃ nd, (runListOps [ListOp.ins 5 true, ListOp.ins 6 true]).nodes.get? 1 =
          some nd ∧ nd.next = none :=
  (claim_C10 [ListOp.ins 5 true, ListOp.ins 6 true]).2 0 1 (by decide)
    (by decide)

theorem claim_C4_witness :
    ((∃ e, ApproximateConcurrentCounterArray.construct 17 (fun _ => 0) =
        .error e) ↔ 17 > 16) ∧
      ApproximateConcurrentCounterArray.construct 3 (fun _ => 0) =
        .ok { thread_counters := fun i => if i < 3 then 0 else 0
              num_threads := 3 } ∧
      ({ thread_counters := fun i => if i < 3 then 0 else 0
         num_threads := 3 } :
        ApproximateConcurrentCounterArray).num_threads = 3 :=
  ⟨(claim_C4 17 (fun _ => 0)).1, rfl,
    (claim_C4 3 (fun _ => 0)).2.1
      { thread_counters := fun i => if i < 3 then 0 else 0
        num_threads := 3 } rfl⟩

theorem claim_C5_witness :
    (((LinkedList.empty.insert 5 false).1 = 0 ∨
        (LinkedList.empty.insert 5 false).1 = -1) ∧
      ((LinkedList.empty.insert 5 false).1 = -1 ↔ false = false) ∧
      (false = false → (LinkedList.empty.insert 5 false).2.1 =
        LinkedList.empty)) ∧
      ((LinkedList.empty.insert 5 true).1 = 0 ∨
        (LinkedList.empty.insert 5 true).1 = -1) :=
  ⟨claim_C5 LinkedList.empty 5 false, (claim_C5 LinkedList.empty 5 true).1⟩
